import Mathlib

/-
Formal model of the arbitrage scanner core (exchangeService / server read
endpoints).  JavaScript numbers are modelled as exact rationals (ℚ); the
claims under verification are algebraic identities and order properties
that are exact in this model.  JS nullish values (`null`/`undefined`) are
modelled with `Option`; the source's `?? 0` / `|| 0` coalescing appears as
`Option.getD 0`, and JS truthiness tests on numbers appear as `= 0` tests.
Division by zero follows Lean's `x / 0 = 0` convention; no verified claim
depends on a division-by-zero branch.
-/

set_option maxHeartbeats 1600000

/- Restore the default reducibility of the rational-number operations so
that concrete runs of the model reduce inside the kernel (the proofs below
evaluate the engine on explicit inputs with `decide`). -/
set_option allowUnsafeReducibility true
attribute [semireducible] Rat.add Rat.mul Rat.sub Rat.div Rat.inv Rat.neg

namespace Arb

/-- Character-level suffix test modelling JS `String.prototype.endsWith`. -/
def strEndsWith (s t : String) : Bool := t.data.isSuffixOf s.data

/-- Registry of supported exchanges, in source order (`exchangeNames`). -/
def exchangeNames : List String := ["binance", "kucoin", "gate", "bitget", "mexc", "bybit"]

/-- One order-book level `{price, amount}`. -/
structure Level where
  price : ℚ
  amount : ℚ
  deriving DecidableEq, Inhabited

/-- Order-book block of a `PairSnapshot` as consumed by the engine. -/
structure OrderBook where
  bids : List Level
  asks : List Level
  deriving DecidableEq, Inhabited

/-- Price block; only the fields the opportunity engine reads are modelled
(`volume` and `priceChangePercent`, both read with `|| 0` coalescing). -/
structure PriceInfo where
  volume : Option ℚ
  priceChangePercent : Option ℚ
  deriving DecidableEq, Inhabited

/-- Fees block; the engine reads `fees?.taker ?? 0`. -/
structure FeesInfo where
  taker : Option ℚ
  deriving DecidableEq, Inhabited

/-- Limits block of a pair snapshot (`market.limits` projection). -/
structure LimitsInfo where
  minAmount : Option ℚ
  maxAmount : Option ℚ
  minPrice : Option ℚ
  maxPrice : Option ℚ
  minCost : Option ℚ
  maxCost : Option ℚ
  deriving DecidableEq, Inhabited

/-- Per-`(venue, symbol)` snapshot entry of `AllData`; `error` models a
truthy `.error` field on the stored object. -/
structure PairData where
  error : Bool
  price : PriceInfo
  orderbook : OrderBook
  fees : FeesInfo
  limits : LimitsInfo
  deriving DecidableEq, Inhabited

/-- The aggregated scan data: `symbol → (exchangeName → PairData)`, as
association lists in JS object-key insertion order. -/
abbrev AllData := List (String × List (String × PairData))

/-- Per-side limit block stored on an emitted opportunity. -/
structure SideLimits where
  minAmount : Option ℚ
  maxAmount : Option ℚ
  minCost : Option ℚ
  maxCost : Option ℚ
  deriving DecidableEq, Inhabited

structure OppLimits where
  buy : SideLimits
  sell : SideLimits
  deriving DecidableEq, Inhabited

structure OppFees where
  tradingAbs : ℚ
  networkAbs : ℚ
  takerBuy : ℚ
  takerSell : ℚ
  deriving DecidableEq, Inhabited

structure OppSlippage where
  buyAbs : Option ℚ
  sellAbs : Option ℚ
  deriving DecidableEq, Inhabited

structure OppEstimates where
  confidenceScore : ℚ
  deriving DecidableEq, Inhabited

structure OppRisk where
  marketVolatility : ℚ
  executionRisk : ℚ
  liquidityRisk : ℚ
  feeRisk : ℚ
  deriving DecidableEq, Inhabited

/-- An emitted opportunity record, with every field of the source object. -/
structure Opportunity where
  symbol : String
  buyExchange : String
  sellExchange : String
  buyPrice : ℚ
  sellPrice : ℚ
  buyEffective : ℚ
  sellEffective : ℚ
  quantity : ℚ
  volume24h : ℚ
  spreadAbs : ℚ
  spreadPct : ℚ
  fees : OppFees
  slippage : OppSlippage
  netProfitAbs : ℚ
  netProfitPct : ℚ
  liquidity : ℚ
  buyLiquidity : ℚ
  sellLiquidity : ℚ
  limits : OppLimits
  estimates : OppEstimates
  risk : OppRisk
  ts : ℤ
  deriving DecidableEq, Inhabited

/-- Result record of `estimateFillPrice`. -/
structure FillResult where
  effectivePrice : Option ℚ
  filled : ℚ
  slippageAbs : Option ℚ
  deriving DecidableEq, Inhabited

/-- The order-book walk loop of `estimateFillPrice`: consume levels in
order, accumulating `(cost, filled)`, skipping non-positive takes and
stopping once the remaining quantity reaches zero. -/
def walk : List Level → ℚ → ℚ × ℚ
  | [], _ => (0, 0)
  | l :: ls, remaining =>
    let take := min remaining l.amount
    if take ≤ 0 then walk ls remaining
    else if remaining - take ≤ 0 then (l.price * take, take)
    else
      let rest := walk ls (remaining - take)
      (l.price * take + rest.1, take + rest.2)

/-- Translation of `estimateFillPrice(levels, qty)`. -/
def estimateFillPrice (levels : List Level) (qty : ℚ) : FillResult :=
  if levels.isEmpty ∨ qty ≤ 0 then ⟨none, 0, none⟩
  else
    let cf := walk levels qty
    if cf.2 ≤ 0 then ⟨none, 0, none⟩
    else
      let eff := cf.1 / cf.2
      ⟨some eff, cf.2, levels.head?.map (fun l => |eff - l.price|)⟩

/-- Sum of level amounts (`reduce((s, l) => s + (l.amount || 0), 0)`). -/
def sumAmounts (ls : List Level) : ℚ := ls.foldl (fun s l => s + l.amount) 0

/-- One limit test of the admission check.  The source guards each
comparison with JS truthiness (`!limits.side.field || comparison`), so a
missing (`null`) limit or a limit equal to 0 passes unconditionally. -/
def limPass (lim : Option ℚ) (check : ℚ → Bool) : Bool :=
  match lim with
  | none => true
  | some x => if x = 0 then true else check x

/-- The limits admission check (`minAmtOk && maxAmtOk && minCostOk && maxCostOk`). -/
def limitsAdmit (bl sl : SideLimits) (qtyEff notionalBuy notionalSell : ℚ) : Bool :=
  (limPass bl.minAmount (fun m => decide (m ≤ qtyEff)) && limPass sl.minAmount (fun m => decide (m ≤ qtyEff))) &&
  (limPass bl.maxAmount (fun m => decide (qtyEff ≤ m)) && limPass sl.maxAmount (fun m => decide (qtyEff ≤ m))) &&
  (limPass bl.minCost (fun m => decide (m ≤ notionalBuy)) && limPass sl.minCost (fun m => decide (m ≤ notionalSell))) &&
  (limPass bl.maxCost (fun m => decide (notionalBuy ≤ m)) && limPass sl.maxCost (fun m => decide (notionalSell ≤ m)))

/-- Rational idealization of `Number(x.toFixed(d))`: round to `d` decimal
places (half away from ties is irrelevant to the claims; `round` is used). -/
def jsToFixed (d : ℕ) (x : ℚ) : ℚ := ((round (x * 10 ^ d) : ℤ) : ℚ) / 10 ^ d

/-- The conditional inside the `liquidityRisk` field
(`qtyEff > availableLiquidity ? 1 : Math.max(0, 1 - availableLiquidity / (qtyEff * 5))`). -/
def liquidityRiskRaw (availableLiquidity qtyEff : ℚ) : ℚ :=
  if availableLiquidity < qtyEff then 1 else max 0 (1 - availableLiquidity / (qtyEff * 5))

/-- Body of the double venue loop of `computeOpportunitiesFromAllData` for
one `(symbol, buyEx, sellEx)` triple with both sides present and
error-free: every gate (`continue`) is a `none`, the final limits check
decides emission.  `now` stands for `Date.now()`. -/
def mkCandidate (symbol buyEx sellEx : String) (bd sd : PairData)
    (tradeSizeUSDT minRawSpreadPct minTradeUSDT : ℚ) (now : ℤ) : Option Opportunity :=
  let buyAsk := (bd.orderbook.asks.head?.map Level.price).getD 0
  let sellBid := (sd.orderbook.bids.head?.map Level.price).getD 0
  if buyAsk = 0 ∨ sellBid = 0 then none
  else
    let intendedQty := tradeSizeUSDT / buyAsk
    let buyFill := estimateFillPrice bd.orderbook.asks intendedQty
    let sellFill := estimateFillPrice sd.orderbook.bids intendedQty
    let qtyEff := min buyFill.filled sellFill.filled
    if qtyEff ≤ 0 then none
    else
      let buyEffective := buyFill.effectivePrice.getD 0
      let sellEffective := sellFill.effectivePrice.getD 0
      if buyEffective = 0 ∨ sellEffective = 0 then none
      else
        let spreadAbs := sellEffective - buyEffective
        let spreadPct := spreadAbs / buyEffective * 100
        let notionalBuy := buyEffective * qtyEff
        if spreadPct ≤ minRawSpreadPct then none
        else if notionalBuy < minTradeUSDT then none
        else
          let takerBuy := bd.fees.taker.getD 0
          let takerSell := sd.fees.taker.getD 0
          let tradingFeesAbs := qtyEff * buyEffective * takerBuy + qtyEff * sellEffective * takerSell
          let networkFeesAbs : ℚ := 0
          let grossProfitAbs := spreadAbs * qtyEff
          let netProfitAbs := grossProfitAbs - (tradingFeesAbs + networkFeesAbs)
          let netProfitPct := netProfitAbs / (buyEffective * qtyEff) * 100
          let buyLiquidity := sumAmounts bd.orderbook.asks
          let sellLiquidity := sumAmounts sd.orderbook.bids
          let availableLiquidity := min buyLiquidity sellLiquidity
          let lims : OppLimits :=
            ⟨⟨bd.limits.minAmount, bd.limits.maxAmount, bd.limits.minCost, bd.limits.maxCost⟩,
             ⟨sd.limits.minAmount, sd.limits.maxAmount, sd.limits.minCost, sd.limits.maxCost⟩⟩
          let opp : Opportunity :=
            { symbol := symbol
              buyExchange := buyEx
              sellExchange := sellEx
              buyPrice := buyAsk
              sellPrice := sellBid
              buyEffective := buyEffective
              sellEffective := sellEffective
              quantity := qtyEff
              volume24h := min (bd.price.volume.getD 0) (sd.price.volume.getD 0)
              spreadAbs := spreadAbs
              spreadPct := spreadPct
              fees := ⟨tradingFeesAbs, networkFeesAbs, takerBuy, takerSell⟩
              slippage := ⟨buyFill.slippageAbs, sellFill.slippageAbs⟩
              netProfitAbs := netProfitAbs
              netProfitPct := netProfitPct
              liquidity := availableLiquidity
              buyLiquidity := buyLiquidity
              sellLiquidity := sellLiquidity
              limits := lims
              estimates := ⟨jsToFixed 3
                (1/2 * max 0 (1 - min ((buyFill.slippageAbs.getD 0 + sellFill.slippageAbs.getD 0) / buyEffective) (2/100))
                 + 3/10 * min 1 (availableLiquidity / (qtyEff * 10))
                 + 2/10 * max 0 (1 - min (tradingFeesAbs / grossProfitAbs) (9/10)))⟩
              risk := ⟨|bd.price.priceChangePercent.getD 0 - sd.price.priceChangePercent.getD 0|,
                       jsToFixed 8 (buyFill.slippageAbs.getD 0 + sellFill.slippageAbs.getD 0),
                       jsToFixed 3 (liquidityRiskRaw availableLiquidity qtyEff),
                       jsToFixed 6 (tradingFeesAbs / max grossProfitAbs (1 / 10 ^ 9))⟩
              ts := now }
          if limitsAdmit lims.buy lims.sell qtyEff notionalBuy (sellEffective * qtyEff) then some opp
          else none

/-- Association-list lookup modelling `perExchange[exchangeName]`. -/
def lookupPair (pe : List (String × PairData)) (name : String) : Option PairData :=
  (pe.find? (fun p => decide (p.1 = name))).map Prod.snd

/-- The unsorted `items` list of `computeOpportunitiesFromAllData`:
symbols in `AllData` key order, then the double loop over the exchange
registry with the `i === j` skip and the missing/error-entry skip. -/
def candidateItems (a : AllData) (tradeSizeUSDT minRawSpreadPct minTradeUSDT : ℚ) (now : ℤ) :
    List Opportunity :=
  a.flatMap fun sp =>
    exchangeNames.flatMap fun buyEx =>
      exchangeNames.filterMap fun sellEx =>
        if buyEx = sellEx then none
        else
          match lookupPair sp.2 buyEx, lookupPair sp.2 sellEx with
          | some bd, some sd =>
            if bd.error || sd.error then none
            else mkCandidate sp.1 buyEx sellEx bd sd tradeSizeUSDT minRawSpreadPct minTradeUSDT now
          | _, _ => none

/-- Stable insertion of one opportunity into a list sorted by descending
`spreadPct`; together with `sortOpps` this is the unique stable descending
sort performed by `items.sort((a, b) => b.spreadPct - a.spreadPct)`. -/
def insertOpp (o : Opportunity) : List Opportunity → List Opportunity
  | [] => [o]
  | x :: xs => if o.spreadPct < x.spreadPct then x :: insertOpp o xs else o :: x :: xs

/-- Stable sort by descending `spreadPct`. -/
def sortOpps (l : List Opportunity) : List Opportunity := l.foldr insertOpp []

/-- Translation of `computeOpportunitiesFromAllData(allData, tradeSizeUSDT)`
with the environment-derived thresholds passed explicitly and `Date.now()`
modelled by the `now` argument. -/
def computeOpportunitiesFromAllData (a : AllData)
    (tradeSizeUSDT minRawSpreadPct minTradeUSDT : ℚ) (now : ℤ) : List Opportunity :=
  sortOpps (candidateItems a tradeSizeUSDT minRawSpreadPct minTradeUSDT now)

/-- Timestamp erasure used to express determinism up to the `ts` stamp. -/
def clearTs (o : Opportunity) : Opportunity := { o with ts := 0 }

/-! ### Snapshot store and read endpoints (part_000 lines 252-262, 506-508; part_002 lines 82-97) -/

/-- The `latestSnapshot` holder `{timestamp, data}`; `data: null` before
the first publication. -/
structure SnapshotState where
  timestamp : Option ℤ
  data : Option AllData
  deriving DecidableEq, Inhabited

/-- The `latestOpportunities` holder `{timestamp, items}`; `items` models
the JS field with `none` standing for a non-array value (the
`Array.isArray` test fails exactly on `none`). -/
structure OppsState where
  timestamp : Option ℤ
  items : Option (List Opportunity)
  deriving DecidableEq, Inhabited

structure StoreState where
  snapshot : SnapshotState
  opportunities : OppsState
  deriving DecidableEq, Inhabited

/-- Initializers: `latestSnapshot = { timestamp: null, data: null }` and
`latestOpportunities = { timestamp: null, items: [] }`. -/
def initialStore : StoreState := ⟨⟨none, none⟩, ⟨none, some []⟩⟩

/-- One publication by the scan loop (`poll`, lines 506-508): store the
snapshot, compute opportunities, store them; `t` models `Date.now()`. -/
def publishScan (st : StoreState) (t : ℤ) (a : AllData)
    (tradeSizeUSDT minRawSpreadPct minTradeUSDT : ℚ) : StoreState :=
  let _ := st
  ⟨⟨some t, some a⟩,
   ⟨some t, some (computeOpportunitiesFromAllData a tradeSizeUSDT minRawSpreadPct minTradeUSDT t)⟩⟩

/-- Handler of `GET /api/markets/snapshot`: `503` when `!snap || !snap.data`,
otherwise `200` with the stored snapshot. -/
def apiMarketsSnapshot (st : StoreState) : ℕ × Option SnapshotState :=
  match st.snapshot.data with
  | none => (503, none)
  | some _ => (200, some st.snapshot)

/-- Handler of `GET /api/opportunities`: `503` when
`!opps || !Array.isArray(opps.items)`, otherwise `200` with the stored set. -/
def apiOpportunities (st : StoreState) : ℕ × Option OppsState :=
  match st.opportunities.items with
  | none => (503, none)
  | some _ => (200, some st.opportunities)

/-! ### safeCall (part_000 lines 26-38) -/

/-- Outcome of one underlying SDK call: a value, or a raised error that is
or is not a `ccxt.RateLimitExceeded`. -/
inductive CallOutcome (α : Type) where
  | ok (v : α)
  | raise (rateLimit : Bool)
  deriving DecidableEq

/-- Outcome of the wrapper as seen by its caller: a resolved value
(`none` models the `return null` path) or a propagated exception. -/
inductive SafeResult (α : Type) where
  | resolved (v : Option α)
  | thrown (rateLimit : Bool)
  deriving DecidableEq

/-- Translation of `safeCall`: `f n` is the outcome of the `n`-th
invocation of the wrapped call.  The second component lists the backoff
delays performed, in ms.  The retry after a rate-limit error sits outside
the `try` block in the source, so its exception propagates. -/
def safeCall {α : Type} (f : ℕ → CallOutcome α) : SafeResult α × List ℕ :=
  match f 0 with
  | .ok v => (.resolved (some v), [])
  | .raise rl =>
    if rl then
      match f 1 with
      | .ok v => (.resolved (some v), [1000])
      | .raise rl2 => (.thrown rl2, [1000])
    else (.resolved none, [])

/-! ### Symbol universe (part_000 lines 210-250) -/

/-- Market metadata fields read by the symbol-universe service. -/
structure MarketMeta where
  active : Bool
  spot : Bool
  deriving DecidableEq, Inhabited

/-- A venue's loaded markets: `none` when `loadMarkets` resolved null,
otherwise the object's key/value pairs in key order. -/
abbrev MarketsMap := List (String × MarketMeta)

/-- Translation of `getUSDTSpotSymbols`: the market keys whose symbol ends
with `/USDT` and whose market is active and spot; `[]` when markets could
not be loaded. -/
def getUSDTSpotSymbols (mkts : Option MarketsMap) : List String :=
  match mkts with
  | none => []
  | some m => (m.filter (fun p => strEndsWith p.1 "/USDT" && p.2.active && p.2.spot)).map Prod.fst

/-- One `symbolCounts.set(symbol, (get(symbol) || 0) + 1)` step on the
insertion-ordered count map. -/
def bumpCount (counts : List (String × ℕ)) (s : String) : List (String × ℕ) :=
  if counts.any (fun p => decide (p.1 = s)) then
    counts.map (fun p => if p.1 = s then (p.1, p.2 + 1) else p)
  else counts ++ [(s, 1)]

/-- Translation of `getCommonUSDTSymbols` over an environment `env`
giving each exchange's loaded markets: count symbol occurrences across
the registry, keep those with count ≥ 2 (the empty-result branch returns
`[]` either way). -/
def getCommonUSDTSymbols (env : String → Option MarketsMap) : List String :=
  let counts := exchangeNames.foldl (fun acc name => (getUSDTSpotSymbols (env name)).foldl bumpCount acc) []
  (counts.filter (fun p => 2 ≤ p.2)).map Prod.fst

/-- Count-map lookup (`symbolCounts.get(symbol) || 0`). -/
def lookupCount (counts : List (String × ℕ)) (s : String) : ℕ :=
  ((counts.find? (fun p => decide (p.1 = s))).map Prod.snd).getD 0

/-! ### Specification-side definitions (for refinement statements only) -/

/-- Modelled from the spec: the consumed slices of the order-book walk
law, "taking each level in order up to the remaining quantity" — each
level contributes the slice `(price, min remaining amount)`. -/
def sliceTakes : List Level → ℚ → List (ℚ × ℚ)
  | [], _ => []
  | l :: ls, r => (l.price, min r l.amount) :: sliceTakes ls (r - min r l.amount)

/-- Modelled from the spec: total cost of the consumed slices. -/
def sliceCost (ls : List Level) (r : ℚ) : ℚ := ((sliceTakes ls r).map (fun s => s.1 * s.2)).sum

/-- Modelled from the spec: total filled amount of the consumed slices. -/
def sliceFill (ls : List Level) (r : ℚ) : ℚ := ((sliceTakes ls r).map Prod.snd).sum

/-- Modelled from the spec: the amount-weighted mean price over the
consumed slices. -/
def specWeightedMean (ls : List Level) (r : ℚ) : ℚ := sliceCost ls r / sliceFill ls r

/-- Limit-value normalization naming the implicit claim: a limit whose
value is 0 is interchangeable with an absent limit. -/
def zeroErase (lim : Option ℚ) : Option ℚ := if lim = some 0 then none else lim

def zeroEraseSide (s : SideLimits) : SideLimits :=
  ⟨zeroErase s.minAmount, zeroErase s.maxAmount, zeroErase s.minCost, zeroErase s.maxCost⟩

/-! ### Lemmas about the stable descending sort -/

lemma mem_insertOpp {y o : Opportunity} {l : List Opportunity} :
    y ∈ insertOpp o l ↔ y = o ∨ y ∈ l := by
  induction l with
  | nil => simp [insertOpp]
  | cons x xs ih =>
    by_cases h : o.spreadPct < x.spreadPct
    · simp only [insertOpp, if_pos h, List.mem_cons, ih]
      tauto
    · simp only [insertOpp, if_neg h, List.mem_cons]

lemma insertOpp_perm (o : Opportunity) (l : List Opportunity) :
    List.Perm (insertOpp o l) (o :: l) := by
  induction l with
  | nil => rfl
  | cons x xs ih =>
    by_cases h : o.spreadPct < x.spreadPct
    · simp only [insertOpp, if_pos h]
      exact ((ih.cons x).trans (List.Perm.swap o x xs))
    · simp [insertOpp, if_neg h]

lemma sortOpps_perm (l : List Opportunity) : List.Perm (sortOpps l) l := by
  induction l with
  | nil => rfl
  | cons x xs ih =>
    have : sortOpps (x :: xs) = insertOpp x (sortOpps xs) := rfl
    rw [this]
    exact (insertOpp_perm x (sortOpps xs)).trans (ih.cons x)

lemma insertOpp_pairwise {o : Opportunity} {l : List Opportunity}
    (h : l.Pairwise (fun x y => y.spreadPct ≤ x.spreadPct)) :
    (insertOpp o l).Pairwise (fun x y => y.spreadPct ≤ x.spreadPct) := by
  induction l with
  | nil => simp [insertOpp]
  | cons x xs ih =>
    rcases List.pairwise_cons.mp h with ⟨hx, hxs⟩
    by_cases hlt : o.spreadPct < x.spreadPct
    · simp only [insertOpp, if_pos hlt]
      refine List.pairwise_cons.mpr ⟨?_, ih hxs⟩
      intro y hy
      rcases mem_insertOpp.mp hy with rfl | hy
      · exact le_of_lt hlt
      · exact hx y hy
    · simp only [insertOpp, if_neg hlt]
      refine List.pairwise_cons.mpr ⟨?_, h⟩
      intro y hy
      rcases List.mem_cons.mp hy with rfl | hy
      · exact le_of_not_lt hlt
      · exact le_trans (hx y hy) (le_of_not_lt hlt)

lemma sortOpps_pairwise (l : List Opportunity) :
    (sortOpps l).Pairwise (fun x y => y.spreadPct ≤ x.spreadPct) := by
  induction l with
  | nil => exact List.Pairwise.nil
  | cons x xs ih => exact insertOpp_pairwise ih

lemma filter_insertOpp (o : Opportunity) (l : List Opportunity) (q : ℚ) :
    (insertOpp o l).filter (fun y => decide (y.spreadPct = q)) =
      (o :: l).filter (fun y => decide (y.spreadPct = q)) := by
  induction l with
  | nil => rfl
  | cons x xs ih =>
    by_cases hlt : o.spreadPct < x.spreadPct
    · have hrw : insertOpp o (x :: xs) = x :: insertOpp o xs := by
        simp [insertOpp, if_pos hlt]
      rw [hrw]
      by_cases ho : o.spreadPct = q
      · have hx : ¬ x.spreadPct = q := by
          intro hx
          exact absurd (hx.trans ho.symm) (ne_of_gt hlt)
        simp [List.filter_cons, ih, ho, hx]
      · simp [List.filter_cons, ih, ho]
    · have hrw : insertOpp o (x :: xs) = o :: x :: xs := by
        simp [insertOpp, if_neg hlt]
      rw [hrw]

lemma sortOpps_filter (l : List Opportunity) (q : ℚ) :
    (sortOpps l).filter (fun y => decide (y.spreadPct = q)) =
      l.filter (fun y => decide (y.spreadPct = q)) := by
  induction l with
  | nil => rfl
  | cons x xs ih =>
    have h1 : sortOpps (x :: xs) = insertOpp x (sortOpps xs) := rfl
    rw [h1, filter_insertOpp]
    simp only [List.filter_cons, ih]

lemma insertOpp_map (f : Opportunity → Opportunity)
    (hf : ∀ x, (f x).spreadPct = x.spreadPct) (o : Opportunity) (l : List Opportunity) :
    insertOpp (f o) (l.map f) = (insertOpp o l).map f := by
  induction l with
  | nil => rfl
  | cons x xs ih =>
    by_cases hlt : o.spreadPct < x.spreadPct
    · simp only [List.map_cons, insertOpp, hf, if_pos hlt, ih]
    · simp only [List.map_cons, insertOpp, hf, if_neg hlt]

lemma getD_ne_zero_some {o : Option ℚ} (h : ¬ o.getD 0 = 0) : o = some (o.getD 0) := by
  cases o with
  | none => simp at h
  | some v => rfl

lemma lookupPair_mem {pe : List (String × PairData)} {name : String} {pd : PairData}
    (h : lookupPair pe name = some pd) : ∃ pr ∈ pe, pr.2 = pd := by
  unfold lookupPair at h
  rcases hf : pe.find? (fun p => decide (p.1 = name)) with _ | pr
  · rw [hf] at h; simp at h
  · rw [hf] at h
    simp at h
    exact ⟨pr, List.mem_of_find?_eq_some hf, h⟩

lemma mem_candidateItems {a : AllData} {t m mt : ℚ} {now : ℤ} {opp : Opportunity}
    (h : opp ∈ candidateItems a t m mt now) :
    ∃ sp ∈ a, ∃ buyEx ∈ exchangeNames, ∃ sellEx ∈ exchangeNames, buyEx ≠ sellEx ∧
      ∃ bd sd, lookupPair sp.2 buyEx = some bd ∧ lookupPair sp.2 sellEx = some sd ∧
        bd.error = false ∧ sd.error = false ∧
        mkCandidate sp.1 buyEx sellEx bd sd t m mt now = some opp := by
  simp only [candidateItems, List.mem_flatMap, List.mem_filterMap] at h
  obtain ⟨sp, hsp, buyEx, hbe, sellEx, hse, hcand⟩ := h
  refine ⟨sp, hsp, buyEx, hbe, sellEx, hse, ?_⟩
  by_cases hne : buyEx = sellEx
  · rw [if_pos hne] at hcand
    exact absurd hcand (by simp)
  · rw [if_neg hne] at hcand
    refine ⟨hne, ?_⟩
    rcases hb : lookupPair sp.2 buyEx with _ | bd
    · rw [hb] at hcand
      exact absurd hcand (by simp)
    · rcases hs : lookupPair sp.2 sellEx with _ | sd
      · rw [hb, hs] at hcand
        exact absurd hcand (by simp)
      · rw [hb, hs] at hcand
        simp only [] at hcand
        by_cases herr : (bd.error || sd.error) = true
        · rw [if_pos herr] at hcand
          exact absurd hcand (by simp)
        · rw [if_neg herr] at hcand
          rcases Bool.or_eq_false_iff.mp (Bool.not_eq_true _ |>.mp herr) with ⟨he1, he2⟩
          exact ⟨bd, sd, rfl, rfl, he1, he2, hcand⟩

lemma sortOpps_map (f : Opportunity → Opportunity)
    (hf : ∀ x, (f x).spreadPct = x.spreadPct) (l : List Opportunity) :
    sortOpps (l.map f) = (sortOpps l).map f := by
  induction l with
  | nil => rfl
  | cons x xs ih =>
    have h1 : sortOpps (x :: xs) = insertOpp x (sortOpps xs) := rfl
    have h2 : sortOpps ((x :: xs).map f) = insertOpp (f x) (sortOpps (xs.map f)) := rfl
    rw [h1, h2, ih, insertOpp_map f hf]


/-- Characterization of an emitted candidate: every gate (`continue`) of
the source's loop body has been passed and the stored fields satisfy the
source's defining equations. -/
lemma mkCandidate_emit {symbol buyEx sellEx : String} {bd sd : PairData}
    {t m mt : ℚ} {now : ℤ} {opp : Opportunity}
    (h : mkCandidate symbol buyEx sellEx bd sd t m mt now = some opp) :
    opp.symbol = symbol ∧ opp.buyExchange = buyEx ∧ opp.sellExchange = sellEx ∧ opp.ts = now ∧
    0 < opp.quantity ∧
    m < opp.spreadPct ∧
    mt ≤ opp.buyEffective * opp.quantity ∧
    opp.spreadAbs = opp.sellEffective - opp.buyEffective ∧
    opp.spreadPct = opp.spreadAbs / opp.buyEffective * 100 ∧
    opp.fees.takerBuy = bd.fees.taker.getD 0 ∧
    opp.fees.takerSell = sd.fees.taker.getD 0 ∧
    opp.netProfitAbs = opp.spreadAbs * opp.quantity -
      (opp.quantity * opp.buyEffective * opp.fees.takerBuy +
       opp.quantity * opp.sellEffective * opp.fees.takerSell) ∧
    opp.netProfitPct = opp.netProfitAbs / (opp.buyEffective * opp.quantity) * 100 ∧
    opp.limits = ⟨⟨bd.limits.minAmount, bd.limits.maxAmount, bd.limits.minCost, bd.limits.maxCost⟩,
                  ⟨sd.limits.minAmount, sd.limits.maxAmount, sd.limits.minCost, sd.limits.maxCost⟩⟩ ∧
    limitsAdmit opp.limits.buy opp.limits.sell opp.quantity (opp.buyEffective * opp.quantity)
      (opp.sellEffective * opp.quantity) = true ∧
    (∃ l0, bd.orderbook.asks.head? = some l0 ∧ opp.buyPrice = l0.price) ∧
    (∃ l0, sd.orderbook.bids.head? = some l0 ∧ opp.sellPrice = l0.price) ∧
    (estimateFillPrice bd.orderbook.asks (t / opp.buyPrice)).effectivePrice = some opp.buyEffective ∧
    (estimateFillPrice sd.orderbook.bids (t / opp.buyPrice)).effectivePrice = some opp.sellEffective := by
  simp only [mkCandidate] at h
  split_ifs at h with h1 h2 h3 h4 h5 h6
  obtain rfl := (Option.some.inj h).symm
  refine ⟨rfl, rfl, rfl, rfl, not_le.mp h2, not_le.mp h4, not_lt.mp h5, rfl, rfl, rfl, rfl,
    ?_, rfl, rfl, h6, ?_, ?_, ?_, ?_⟩
  · dsimp only
    ring
  · rcases hb : bd.orderbook.asks.head? with _ | l0
    · rw [hb] at h1
      simp at h1
    · exact ⟨l0, rfl, by simp⟩
  · rcases hs : sd.orderbook.bids.head? with _ | l0
    · rw [hs] at h1
      simp at h1
    · exact ⟨l0, rfl, by simp⟩
  · exact getD_ne_zero_some (fun hz => h3 (Or.inl hz))
  · exact getD_ne_zero_some (fun hz => h3 (Or.inr hz))

/-- Combined membership decomposition for the engine's output. -/
lemma mem_computeOpportunities {a : AllData} {t m mt : ℚ} {now : ℤ} {opp : Opportunity}
    (h : opp ∈ computeOpportunitiesFromAllData a t m mt now) :
    ∃ sp ∈ a, ∃ buyEx ∈ exchangeNames, ∃ sellEx ∈ exchangeNames, buyEx ≠ sellEx ∧
      ∃ bd sd, lookupPair sp.2 buyEx = some bd ∧ lookupPair sp.2 sellEx = some sd ∧
        bd.error = false ∧ sd.error = false ∧
        mkCandidate sp.1 buyEx sellEx bd sd t m mt now = some opp := by
  have hmem : opp ∈ candidateItems a t m mt now :=
    (sortOpps_perm (candidateItems a t m mt now)).mem_iff.mp h
  exact mem_candidateItems hmem



/-! ### Concrete inputs used by witnesses and counterexamples -/

def noLimits : LimitsInfo := ⟨none, none, none, none, none, none⟩

/-- Sample buy-side venue snapshot: bids `[(99, 1)]`, asks `[(100, 1)]`,
taker fee `0.001`. -/
def pairBuyA : PairData :=
  { error := false, price := ⟨some 5, some 0⟩,
    orderbook := ⟨[⟨99, 1⟩], [⟨100, 1⟩]⟩,
    fees := ⟨some (1/1000)⟩, limits := noLimits }

/-- Sample sell-side venue snapshot: bids `[(101, 1)]`, asks `[(102, 1)]`,
taker fee `0.001`. -/
def pairSellA : PairData :=
  { error := false, price := ⟨some 7, some 0⟩,
    orderbook := ⟨[⟨101, 1⟩], [⟨102, 1⟩]⟩,
    fees := ⟨some (1/1000)⟩, limits := noLimits }

/-- One symbol on two venues with a 1 percent spread. -/
def dataA : AllData := [("BTC/USDT", [("binance", pairBuyA), ("kucoin", pairSellA)])]

/-- The single opportunity the engine emits on `dataA`. -/
def oppA : Opportunity := (computeOpportunitiesFromAllData dataA 25 0 1 0).headI

/-- Same scene, but the buy venue reports `maxAmount = 0`. -/
def pairBuyB : PairData :=
  { pairBuyA with limits := ⟨none, some 0, none, none, none, none⟩ }

def dataB : AllData := [("BTC/USDT", [("binance", pairBuyB), ("kucoin", pairSellA)])]

def oppB : Opportunity := (computeOpportunitiesFromAllData dataB 25 0 1 0).headI

/-- Two symbols stored in non-alphabetical key order, identical books on
both, hence equal `spreadPct`. -/
def dataC : AllData :=
  [("BBB/USDT", [("binance", pairBuyA), ("kucoin", pairSellA)]),
   ("AAA/USDT", [("binance", pairBuyA), ("kucoin", pairSellA)])]

/-! ### C1 -/

/-- C1: for every opportunity emitted by `computeOpportunitiesFromAllData`,
`netProfitAbs = spreadAbs*quantity - (quantity*buyEffective*takerBuy +
quantity*sellEffective*takerSell)` and `netProfitPct =
netProfitAbs/(buyEffective*quantity)*100`, where the taker fees stored on
the record are the input fees with a missing fee taken as 0.  In the exact
rational model the identities hold exactly, hence within any 1e-9
tolerance. -/
theorem claim1_profit_consistency (a : AllData) (t m mt : ℚ) (now : ℤ) :
    ∀ opp ∈ computeOpportunitiesFromAllData a t m mt now,
      opp.netProfitAbs = opp.spreadAbs * opp.quantity -
        (opp.quantity * opp.buyEffective * opp.fees.takerBuy +
         opp.quantity * opp.sellEffective * opp.fees.takerSell) ∧
      opp.netProfitPct = opp.netProfitAbs / (opp.buyEffective * opp.quantity) * 100 ∧
      ∃ sp ∈ a, ∃ bd sd, lookupPair sp.2 opp.buyExchange = some bd ∧
        lookupPair sp.2 opp.sellExchange = some sd ∧
        opp.fees.takerBuy = bd.fees.taker.getD 0 ∧
        opp.fees.takerSell = sd.fees.taker.getD 0 := by
  intro opp h
  obtain ⟨sp, hsp, be, _, se, _, _, bd, sd, hlb, hls, _, _, hmk⟩ := mem_computeOpportunities h
  obtain ⟨_, hbe, hse, _, _, _, _, _, _, htb, hts, hnet, hpct, _, _, _, _, _, _⟩ :=
    mkCandidate_emit hmk
  exact ⟨hnet, hpct, sp, hsp, bd, sd, by rw [hbe]; exact hlb, by rw [hse]; exact hls, htb, hts⟩

/-- C1 witness: the profit identities evaluated on the concrete emitted
opportunity of `dataA`. -/
theorem claim1_profit_consistency_witness :
    oppA.netProfitAbs = oppA.spreadAbs * oppA.quantity -
        (oppA.quantity * oppA.buyEffective * oppA.fees.takerBuy +
         oppA.quantity * oppA.sellEffective * oppA.fees.takerSell) ∧
      oppA.netProfitPct = oppA.netProfitAbs / (oppA.buyEffective * oppA.quantity) * 100 :=
  ⟨(claim1_profit_consistency dataA 25 0 1 0 oppA (by decide)).1,
   (claim1_profit_consistency dataA 25 0 1 0 oppA (by decide)).2.1⟩

/-! ### C2 -/

lemma limPass_spec {lim : Option ℚ} {check : ℚ → Bool} (h : limPass lim check = true)
    {x : ℚ} (hx : lim = some x) (hx0 : ¬ x = 0) : check x = true := by
  subst hx
  simpa [limPass, hx0] using h

/-- C2 as stated is false on the code: the admission check treats a limit
value of 0 as absent, so a candidate violating `quantity ≤ maxAmount` for
a present `maxAmount = 0` is still emitted (`dataB`, buy side). -/
theorem claim2_threshold_gates_counterexample :
    oppB ∈ computeOpportunitiesFromAllData dataB 25 0 1 0 ∧
    oppB.limits.buy.maxAmount = some 0 ∧ ¬ oppB.quantity ≤ 0 := by
  decide

/-- C2 (amended: a present limit constrains the candidate only when its
value is nonzero; a limit equal to 0 is treated as absent): every emitted
opportunity has distinct venues, positive quantity, `spreadPct` strictly
above `minRawSpreadPct`, buy notional at least `minTradeUSDT`, and
satisfies every present nonzero limit bound on both sides; a candidate
violating one of these is not emitted. -/
theorem claim2_threshold_gates (a : AllData) (t m mt : ℚ) (now : ℤ) :
    ∀ opp ∈ computeOpportunitiesFromAllData a t m mt now,
      opp.buyExchange ≠ opp.sellExchange ∧
      0 < opp.quantity ∧
      m < opp.spreadPct ∧
      mt ≤ opp.buyEffective * opp.quantity ∧
      (∀ x, opp.limits.buy.minAmount = some x → x ≠ 0 → x ≤ opp.quantity) ∧
      (∀ x, opp.limits.sell.minAmount = some x → x ≠ 0 → x ≤ opp.quantity) ∧
      (∀ x, opp.limits.buy.maxAmount = some x → x ≠ 0 → opp.quantity ≤ x) ∧
      (∀ x, opp.limits.sell.maxAmount = some x → x ≠ 0 → opp.quantity ≤ x) ∧
      (∀ x, opp.limits.buy.minCost = some x → x ≠ 0 → x ≤ opp.buyEffective * opp.quantity) ∧
      (∀ x, opp.limits.sell.minCost = some x → x ≠ 0 → x ≤ opp.sellEffective * opp.quantity) ∧
      (∀ x, opp.limits.buy.maxCost = some x → x ≠ 0 → opp.buyEffective * opp.quantity ≤ x) ∧
      (∀ x, opp.limits.sell.maxCost = some x → x ≠ 0 → opp.sellEffective * opp.quantity ≤ x) := by
  intro opp h
  obtain ⟨sp, _, be, _, se, _, hne, bd, sd, _, _, _, _, hmk⟩ := mem_computeOpportunities h
  obtain ⟨_, hbe, hse, _, hq, hm, hmt, _, _, _, _, _, _, _, hadmit, _, _, _, _⟩ :=
    mkCandidate_emit hmk
  simp only [limitsAdmit, Bool.and_eq_true] at hadmit
  obtain ⟨⟨⟨⟨a1, a2⟩, b1, b2⟩, c1, c2⟩, d1, d2⟩ := hadmit
  refine ⟨?_, hq, hm, hmt, ?_, ?_, ?_, ?_, ?_, ?_, ?_, ?_⟩
  · rw [hbe, hse]
    exact hne
  · exact fun x hx hx0 => of_decide_eq_true (limPass_spec a1 hx hx0)
  · exact fun x hx hx0 => of_decide_eq_true (limPass_spec a2 hx hx0)
  · exact fun x hx hx0 => of_decide_eq_true (limPass_spec b1 hx hx0)
  · exact fun x hx hx0 => of_decide_eq_true (limPass_spec b2 hx hx0)
  · exact fun x hx hx0 => of_decide_eq_true (limPass_spec c1 hx hx0)
  · exact fun x hx hx0 => of_decide_eq_true (limPass_spec c2 hx hx0)
  · exact fun x hx hx0 => of_decide_eq_true (limPass_spec d1 hx hx0)
  · exact fun x hx hx0 => of_decide_eq_true (limPass_spec d2 hx hx0)

/-- C2 witness: the amended gate conditions evaluated on the concrete
emitted opportunity of `dataA` (config `t=25, m=0, mt=1`). -/
theorem claim2_threshold_gates_witness :
    oppA.buyExchange ≠ oppA.sellExchange ∧ 0 < oppA.quantity ∧ 0 < oppA.spreadPct ∧
      1 ≤ oppA.buyEffective * oppA.quantity :=
  ⟨(claim2_threshold_gates dataA 25 0 1 0 oppA (by decide)).1,
   (claim2_threshold_gates dataA 25 0 1 0 oppA (by decide)).2.1,
   (claim2_threshold_gates dataA 25 0 1 0 oppA (by decide)).2.2.1,
   (claim2_threshold_gates dataA 25 0 1 0 oppA (by decide)).2.2.2.1⟩



/-! ### C3 -/

/-- C3 as stated is false on the code: the engine sorts only by
`spreadPct` and keeps ties in candidate-generation order, which follows
the `AllData` key order of symbols, not alphabetical order.  On `dataC`
(keys `BBB/USDT` then `AAA/USDT`, identical books, equal `spreadPct`) the
emitted ties stand in non-alphabetical order. -/
theorem claim3_sort_order_counterexample :
    (computeOpportunitiesFromAllData dataC 25 0 1 0).map (fun o => o.symbol) =
        ["BBB/USDT", "AAA/USDT"] ∧
    (computeOpportunitiesFromAllData dataC 25 0 1 0).map (fun o => o.spreadPct) = [1, 1] ∧
    "AAA/USDT".data < "BBB/USDT".data := by
  decide

/-- C3 (amended: the list is sorted non-increasing in `spreadPct`, and
opportunities with equal `spreadPct` keep the candidate-generation order:
symbols in `AllData` key order — not necessarily alphabetical — then buy
venue and sell venue in registry order, which is exactly the order of
`candidateItems`). -/
theorem claim3_sort_order (a : AllData) (t m mt : ℚ) (now : ℤ) :
    (computeOpportunitiesFromAllData a t m mt now).Pairwise
        (fun x y => y.spreadPct ≤ x.spreadPct) ∧
    ∀ q : ℚ, (computeOpportunitiesFromAllData a t m mt now).filter
        (fun y => decide (y.spreadPct = q)) =
      (candidateItems a t m mt now).filter (fun y => decide (y.spreadPct = q)) :=
  ⟨sortOpps_pairwise _, fun q => sortOpps_filter _ q⟩

/-! ### C6 -/

lemma mkCandidate_ts (symbol buyEx sellEx : String) (bd sd : PairData)
    (t m mt : ℚ) (now : ℤ) :
    mkCandidate symbol buyEx sellEx bd sd t m mt now =
      (mkCandidate symbol buyEx sellEx bd sd t m mt 0).map (fun o => { o with ts := now }) := by
  simp only [mkCandidate]
  split_ifs <;> rfl

lemma candidateItems_ts (a : AllData) (t m mt : ℚ) (now : ℤ) :
    candidateItems a t m mt now =
      (candidateItems a t m mt 0).map (fun o => { o with ts := now }) := by
  simp only [candidateItems, List.map_flatMap, List.map_filterMap]
  congr 1
  funext sp
  congr 1
  funext be
  congr 1
  funext se
  by_cases hbs : be = se
  · simp [hbs]
  · simp only [if_neg hbs]
    cases hb : lookupPair sp.2 be with
    | none => simp
    | some bd =>
      cases hs : lookupPair sp.2 se with
      | none => simp
      | some sd =>
        by_cases herr : (bd.error || sd.error) = true
        · simp [herr]
        · dsimp only
          rw [if_neg herr, if_neg herr]
          exact mkCandidate_ts sp.1 be se bd sd t m mt now

lemma computeOpportunitiesFromAllData_ts (a : AllData) (t m mt : ℚ) (now : ℤ) :
    computeOpportunitiesFromAllData a t m mt now =
      (computeOpportunitiesFromAllData a t m mt 0).map (fun o => { o with ts := now }) := by
  unfold computeOpportunitiesFromAllData
  rw [candidateItems_ts, sortOpps_map (fun o => { o with ts := now }) (fun x => rfl)]

/-- C6 as stated is false on the code: each record stores `ts = Date.now()`,
so two invocations on identical `AllData` and config at different clock
readings differ (here in the `ts` field of the single emitted record). -/
theorem claim6_determinism_counterexample :
    computeOpportunitiesFromAllData dataA 25 0 1 0 ≠
      computeOpportunitiesFromAllData dataA 25 0 1 1 := by
  decide

/-- C6 (amended: the engine is deterministic up to timestamps — two
invocations on identical `AllData` and identical configuration produce
identical output, including ordering, in every field except `ts`, which
records the invocation clock reading). -/
theorem claim6_determinism (a : AllData) (t m mt : ℚ) (n1 n2 : ℤ) :
    (computeOpportunitiesFromAllData a t m mt n1).map clearTs =
      (computeOpportunitiesFromAllData a t m mt n2).map clearTs := by
  rw [computeOpportunitiesFromAllData_ts a t m mt n1,
    computeOpportunitiesFromAllData_ts a t m mt n2, List.map_map, List.map_map]
  rfl



/-! ### C4 -/

lemma walk_fst_ge (c : ℚ) (ls : List Level) : ∀ r : ℚ, (∀ l ∈ ls, c ≤ l.price) →
    c * (walk ls r).2 ≤ (walk ls r).1 := by
  induction ls with
  | nil => intro r _; simp [walk]
  | cons l ls ih =>
    intro r h
    have hl : c ≤ l.price := h l (List.mem_cons_self l ls)
    have hls : ∀ x ∈ ls, c ≤ x.price := fun x hx => h x (List.mem_cons_of_mem l hx)
    simp only [walk]
    split_ifs with h1 h2
    · exact ih r hls
    · exact mul_le_mul_of_nonneg_right hl (le_of_lt (not_le.mp h1))
    · have h3 : c * min r l.amount ≤ l.price * min r l.amount :=
        mul_le_mul_of_nonneg_right hl (le_of_lt (not_le.mp h1))
      have ih2 := ih (r - min r l.amount) hls
      calc c * (min r l.amount + (walk ls (r - min r l.amount)).2)
          = c * min r l.amount + c * (walk ls (r - min r l.amount)).2 := mul_add c _ _
        _ ≤ l.price * min r l.amount + (walk ls (r - min r l.amount)).1 := add_le_add h3 ih2

lemma walk_fst_le (c : ℚ) (ls : List Level) : ∀ r : ℚ, (∀ l ∈ ls, l.price ≤ c) →
    (walk ls r).1 ≤ c * (walk ls r).2 := by
  induction ls with
  | nil => intro r _; simp [walk]
  | cons l ls ih =>
    intro r h
    have hl : l.price ≤ c := h l (List.mem_cons_self l ls)
    have hls : ∀ x ∈ ls, x.price ≤ c := fun x hx => h x (List.mem_cons_of_mem l hx)
    simp only [walk]
    split_ifs with h1 h2
    · exact ih r hls
    · exact mul_le_mul_of_nonneg_right hl (le_of_lt (not_le.mp h1))
    · have h3 : l.price * min r l.amount ≤ c * min r l.amount :=
        mul_le_mul_of_nonneg_right hl (le_of_lt (not_le.mp h1))
      have ih2 := ih (r - min r l.amount) hls
      calc l.price * min r l.amount + (walk ls (r - min r l.amount)).1
          ≤ c * min r l.amount + c * (walk ls (r - min r l.amount)).2 := add_le_add h3 ih2
        _ = c * (min r l.amount + (walk ls (r - min r l.amount)).2) := (mul_add c _ _).symm

lemma estimateFillPrice_effective_ge {levels : List Level} {q eff c : ℚ}
    (hmono : ∀ l ∈ levels, c ≤ l.price)
    (heff : (estimateFillPrice levels q).effectivePrice = some eff) : c ≤ eff := by
  simp only [estimateFillPrice] at heff
  split_ifs at heff with hg hf
  have hpos : 0 < (walk levels q).2 := not_le.mp hf
  obtain rfl := (Option.some.inj heff)
  exact (le_div_iff₀ hpos).mpr (walk_fst_ge c levels q hmono)

lemma estimateFillPrice_effective_le {levels : List Level} {q eff c : ℚ}
    (hmono : ∀ l ∈ levels, l.price ≤ c)
    (heff : (estimateFillPrice levels q).effectivePrice = some eff) : eff ≤ c := by
  simp only [estimateFillPrice] at heff
  split_ifs at heff with hg hf
  have hpos : 0 < (walk levels q).2 := not_le.mp hf
  obtain rfl := (Option.some.inj heff)
  exact (div_le_iff₀ hpos).mpr (walk_fst_le c levels q hmono)

lemma head_le_of_pairwise {levels : List Level} {l0 : Level} (hhead : levels.head? = some l0)
    (hp : levels.Pairwise (fun x y : Level => x.price ≤ y.price)) :
    ∀ l ∈ levels, l0.price ≤ l.price := by
  cases levels with
  | nil => simp at hhead
  | cons a rest =>
    obtain rfl : a = l0 := Option.some.inj hhead
    intro l hl
    rcases List.mem_cons.mp hl with rfl | hl
    · exact le_refl _
    · exact (List.pairwise_cons.mp hp).1 l hl

lemma head_ge_of_pairwise {levels : List Level} {l0 : Level} (hhead : levels.head? = some l0)
    (hp : levels.Pairwise (fun x y : Level => y.price ≤ x.price)) :
    ∀ l ∈ levels, l.price ≤ l0.price := by
  cases levels with
  | nil => simp at hhead
  | cons a rest =>
    obtain rfl : a = l0 := Option.some.inj hhead
    intro l hl
    rcases List.mem_cons.mp hl with rfl | hl
    · exact le_refl _
    · exact (List.pairwise_cons.mp hp).1 l hl

/-- C4: assuming each stored book has asks sorted non-decreasing and bids
sorted non-increasing in price, with positive level prices, every emitted
opportunity satisfies `buyPrice ≤ buyEffective` and
`sellEffective ≤ sellPrice` — walking deeper can only worsen the taker. -/
theorem claim4_effective_price_bounds (a : AllData) (t m mt : ℚ) (now : ℤ)
    (hbooks : ∀ sp ∈ a, ∀ vp ∈ sp.2,
      (vp.2.orderbook.asks.Pairwise (fun x y : Level => x.price ≤ y.price)) ∧
      (vp.2.orderbook.bids.Pairwise (fun x y : Level => y.price ≤ x.price)) ∧
      (∀ l ∈ vp.2.orderbook.asks, 0 < l.price) ∧ (∀ l ∈ vp.2.orderbook.bids, 0 < l.price)) :
    ∀ opp ∈ computeOpportunitiesFromAllData a t m mt now,
      opp.buyPrice ≤ opp.buyEffective ∧ opp.sellEffective ≤ opp.sellPrice := by
  intro opp h
  obtain ⟨sp, hsp, be, _, se, _, _, bd, sd, hlb, hls, _, _, hmk⟩ := mem_computeOpportunities h
  obtain ⟨_, _, _, _, _, _, _, _, _, _, _, _, _, _, _, ⟨lb, hlbh, hlbp⟩, ⟨ls0, hlsh, hlsp⟩,
    heffb, heffs⟩ := mkCandidate_emit hmk
  obtain ⟨prb, hprb, hprb2⟩ := lookupPair_mem hlb
  obtain ⟨prs, hprs, hprs2⟩ := lookupPair_mem hls
  have hbb := hbooks sp hsp prb hprb
  have hbs := hbooks sp hsp prs hprs
  rw [hprb2] at hbb
  rw [hprs2] at hbs
  constructor
  · rw [hlbp]
    exact estimateFillPrice_effective_ge (head_le_of_pairwise hlbh hbb.1) heffb
  · rw [hlsp]
    exact estimateFillPrice_effective_le (head_ge_of_pairwise hlsh hbs.2.1) heffs

/-- C4 witness: the bounds evaluated on the concrete emitted opportunity
of `dataA`, whose single-level books satisfy the ordering hypotheses. -/
theorem claim4_effective_price_bounds_witness :
    oppA.buyPrice ≤ oppA.buyEffective ∧ oppA.sellEffective ≤ oppA.sellPrice :=
  claim4_effective_price_bounds dataA 25 0 1 0 (by decide) oppA (by decide)



/-! ### C5 -/

lemma sumAmounts_eq (ls : List Level) : sumAmounts ls = (ls.map Level.amount).sum := by
  have key : ∀ (xs : List Level) (s : ℚ),
      xs.foldl (fun a l => a + l.amount) s = s + (xs.map Level.amount).sum := by
    intro xs
    induction xs with
    | nil => intro s; simp
    | cons x xs ih =>
      intro s
      simp only [List.foldl_cons, List.map_cons, List.sum_cons, ih]
      ring
  simpa [sumAmounts] using key ls 0

lemma sumAmounts_nonneg {ls : List Level} (h : ∀ l ∈ ls, 0 ≤ l.amount) : 0 ≤ sumAmounts ls := by
  rw [sumAmounts_eq]
  apply List.sum_nonneg
  intro x hx
  obtain ⟨l, hl, rfl⟩ := List.mem_map.mp hx
  exact h l hl

lemma sumAmounts_cons (l : Level) (ls : List Level) :
    sumAmounts (l :: ls) = l.amount + sumAmounts ls := by
  simp [sumAmounts_eq]

lemma sumAmounts_take_le {ls : List Level} (k : ℕ) (h : ∀ l ∈ ls, 0 ≤ l.amount) :
    sumAmounts (ls.take k) ≤ sumAmounts ls := by
  have hsplit : sumAmounts ls = sumAmounts (ls.take k) + sumAmounts (ls.drop k) := by
    rw [sumAmounts_eq, sumAmounts_eq, sumAmounts_eq, ← List.sum_append, ← List.map_append,
      List.take_append_drop]
  have hd : 0 ≤ sumAmounts (ls.drop k) :=
    sumAmounts_nonneg (fun l hl => h l (List.mem_of_mem_drop hl))
  linarith

lemma sliceCost_cons (l : Level) (ls : List Level) (r : ℚ) :
    sliceCost (l :: ls) r = l.price * min r l.amount + sliceCost ls (r - min r l.amount) := by
  simp [sliceCost, sliceTakes]

lemma sliceFill_cons (l : Level) (ls : List Level) (r : ℚ) :
    sliceFill (l :: ls) r = min r l.amount + sliceFill ls (r - min r l.amount) := by
  simp [sliceFill, sliceTakes]

lemma slice_zero {ls : List Level} (h : ∀ l ∈ ls, 0 ≤ l.amount) :
    sliceCost ls 0 = 0 ∧ sliceFill ls 0 = 0 := by
  induction ls with
  | nil => simp [sliceCost, sliceFill, sliceTakes]
  | cons l ls ih =>
    have ha : 0 ≤ l.amount := h l (List.mem_cons_self l ls)
    have hm : min (0 : ℚ) l.amount = 0 := min_eq_left ha
    have ih2 := ih (fun x hx => h x (List.mem_cons_of_mem l hx))
    rw [sliceCost_cons, sliceFill_cons, hm]
    simp [ih2.1, ih2.2]

lemma walk_eq_slice {ls : List Level} (h : ∀ l ∈ ls, 0 ≤ l.amount) :
    ∀ r : ℚ, 0 ≤ r → walk ls r = (sliceCost ls r, sliceFill ls r) := by
  induction ls with
  | nil => intro r _; simp [walk, sliceCost, sliceFill, sliceTakes]
  | cons l ls ih =>
    intro r hr
    have ha : 0 ≤ l.amount := h l (List.mem_cons_self l ls)
    have hls : ∀ x ∈ ls, 0 ≤ x.amount := fun x hx => h x (List.mem_cons_of_mem l hx)
    have htake_le : min r l.amount ≤ r := min_le_left _ _
    simp only [walk]
    split_ifs with h1 h2
    · have ht0 : min r l.amount = 0 := le_antisymm h1 (le_min hr ha)
      rw [sliceCost_cons, sliceFill_cons, ht0, ih hls r hr]
      simp
    · have hr0 : r - min r l.amount = 0 := le_antisymm h2 (by linarith)
      rw [sliceCost_cons, sliceFill_cons, hr0, (slice_zero hls).1, (slice_zero hls).2]
      simp
    · have hr0 : 0 ≤ r - min r l.amount := by linarith [not_le.mp h2]
      rw [sliceCost_cons, sliceFill_cons, ih hls (r - min r l.amount) (by linarith)]

lemma sliceFill_eq_min {ls : List Level} (h : ∀ l ∈ ls, 0 ≤ l.amount) :
    ∀ r : ℚ, 0 ≤ r → sliceFill ls r = min r (sumAmounts ls) := by
  induction ls with
  | nil =>
    intro r hr
    simp [sliceFill, sliceTakes, sumAmounts, min_eq_right hr]
  | cons l ls ih =>
    intro r hr
    have ha : 0 ≤ l.amount := h l (List.mem_cons_self l ls)
    have hls : ∀ x ∈ ls, 0 ≤ x.amount := fun x hx => h x (List.mem_cons_of_mem l hx)
    have hS : 0 ≤ sumAmounts ls := sumAmounts_nonneg hls
    rw [sliceFill_cons, sumAmounts_cons]
    rcases le_total r l.amount with hra | hra
    · rw [min_eq_left hra, sub_self, ih hls 0 le_rfl, min_eq_left hS,
        min_eq_left (show r ≤ l.amount + sumAmounts ls by linarith)]
      ring
    · rw [min_eq_right hra]
      rw [ih hls (r - l.amount) (by linarith)]
      rcases le_total (r - l.amount) (sumAmounts ls) with hrs | hrs
      · rw [min_eq_left hrs, min_eq_left (by linarith)]
        ring
      · rw [min_eq_right hrs, min_eq_right (by linarith)]

/-- C5: if the combined amount on the first `k` levels covers a positive
intended quantity `q` (level amounts being non-negative as in the data
model), `estimateFillPrice` fills exactly `q` and its effective price is
the amount-weighted mean over the consumed slices, as defined by the
spec-side `specWeightedMean`. -/
theorem claim5_order_book_walk_law (levels : List Level) (q : ℚ) (k : ℕ)
    (hq : 0 < q) (hnn : ∀ l ∈ levels, 0 ≤ l.amount)
    (hk : q ≤ sumAmounts (levels.take k)) :
    (estimateFillPrice levels q).filled = q ∧
    (estimateFillPrice levels q).effectivePrice = some (specWeightedMean levels q) := by
  have hne : levels ≠ [] := by
    intro h0
    subst h0
    simp [sumAmounts] at hk
    linarith
  have hql : q ≤ sumAmounts levels := le_trans hk (sumAmounts_take_le k hnn)
  have hw := walk_eq_slice hnn q hq.le
  have hfillq : sliceFill levels q = q := by
    rw [sliceFill_eq_min hnn q hq.le]
    exact min_eq_left hql
  have hfill : (walk levels q).2 = q := by rw [hw]; exact hfillq
  have hguard : ¬(levels.isEmpty = true ∨ q ≤ 0) := by
    push_neg
    exact ⟨by simpa [List.isEmpty_iff] using hne, hq⟩
  have hf : ¬((walk levels q).2 ≤ 0) := by
    rw [hfill]
    exact not_le.mpr hq
  constructor
  · simp only [estimateFillPrice, if_neg hguard, if_neg hf]
    exact hfill
  · simp only [estimateFillPrice, if_neg hguard, if_neg hf]
    rw [hw]
    simp only [specWeightedMean, hfillq]


/-! ### C7 -/

/-- A call behaviour that raises `RateLimitExceeded` on every invocation. -/
def c7RateLimitTwice : ℕ → CallOutcome Unit := fun _ => .raise true

/-- A call behaviour whose first invocation raises `RateLimitExceeded` and
whose retry succeeds. -/
def c7RetryOk : ℕ → CallOutcome ℕ := fun n => if n = 0 then .raise true else .ok 7

/-- C7 as stated is false on the code: the retry issued after a rate-limit
error sits outside the `try` block, so when the retry also fails (here a
second rate-limit) `safeCall` propagates the exception to its caller
instead of resolving to null. -/
theorem claim7_safecall_counterexample :
    safeCall c7RateLimitTwice = (SafeResult.thrown true, [1000]) := rfl

/-- C7 (amended: `safeCall` traps the first error; on a first rate-limit
error it waits 1000 ms and retries exactly once, and the retry's outcome —
value or exception, including a second rate-limit — is passed through to
the caller, so a failing retry propagates; a first non-rate-limit error
resolves to a null outcome without waiting). -/
theorem claim7_safecall (α : Type) (f : ℕ → CallOutcome α) :
    (∀ v, f 0 = .ok v → safeCall f = (.resolved (some v), [])) ∧
    (f 0 = .raise false → safeCall f = (.resolved none, [])) ∧
    (∀ v, f 0 = .raise true → f 1 = .ok v → safeCall f = (.resolved (some v), [1000])) ∧
    (∀ b, f 0 = .raise true → f 1 = .raise b → safeCall f = (.thrown b, [1000])) := by
  refine ⟨?_, ?_, ?_, ?_⟩ <;> intros <;> simp_all [safeCall]

/-- C7 witness: the amended behaviour evaluated on the concrete
rate-limit-then-success call. -/
theorem claim7_safecall_witness :
    safeCall c7RetryOk = (SafeResult.resolved (some 7), [1000]) :=
  (claim7_safecall ℕ c7RetryOk).2.2.1 7 rfl rfl

/-! ### C8 -/

/-- C8 as stated is false on the code: `latestOpportunities` is
initialized with `items: []`, which already passes the route's
`Array.isArray` check, so `GET /api/opportunities` returns 200 with
`{timestamp: null, items: []}` before any publication; its 503 branch is
unreachable from the initial state. -/
theorem claim8_endpoints_counterexample :
    apiOpportunities initialStore = (200, some ⟨none, some []⟩) ∧ (200 : ℕ) ≠ 503 :=
  ⟨rfl, by decide⟩

/-- C8 (amended: `GET snapshot` returns 503 before the first publication —
the stored `data` is null — and the published snapshot afterwards;
`GET opportunities` returns 200 already before the first publication, with
the initializer `{timestamp: null, items: []}`, and the published set
afterwards). -/
theorem claim8_endpoints :
    apiMarketsSnapshot initialStore = (503, none) ∧
    apiOpportunities initialStore = (200, some ⟨none, some []⟩) ∧
    (∀ st t a tr m mt, apiMarketsSnapshot (publishScan st t a tr m mt) =
      (200, some ⟨some t, some a⟩)) ∧
    (∀ st t a tr m mt, apiOpportunities (publishScan st t a tr m mt) =
      (200, some ⟨some t, some (computeOpportunitiesFromAllData a tr m mt t)⟩)) :=
  ⟨rfl, rfl, fun _ _ _ _ _ _ => rfl, fun _ _ _ _ _ _ => rfl⟩

/-! ### C10 -/

lemma limPass_zeroErase (lim : Option ℚ) (check : ℚ → Bool) :
    limPass (zeroErase lim) check = limPass lim check := by
  cases lim with
  | none => rfl
  | some x =>
    by_cases hx : x = 0
    · subst hx
      simp [zeroErase, limPass]
    · simp [zeroErase, limPass, hx, Option.some.injEq]

/-- C10: in the limits admission check a limit equal to 0 behaves exactly
like an absent limit — erasing every `some 0` limit to `none` leaves the
admission decision unchanged for all candidate quantities and notionals —
and a `some 0` limit on its own passes every comparison, so it never
causes rejection and imposes no cap. -/
theorem claim10_zero_limit_absent (bl sl : SideLimits) (qtyEff notionalBuy notionalSell : ℚ) :
    limitsAdmit (zeroEraseSide bl) (zeroEraseSide sl) qtyEff notionalBuy notionalSell =
      limitsAdmit bl sl qtyEff notionalBuy notionalSell ∧
    ∀ check : ℚ → Bool, limPass (some 0) check = true := by
  constructor
  · simp [limitsAdmit, zeroEraseSide, limPass_zeroErase]
  · intro check
    rfl



/-! ### C5 witness input -/

/-- C5 witness: two levels `(10, 2)` and `(11, 3)` cover `q = 4` within
the first `k = 2` levels. -/
theorem claim5_order_book_walk_law_witness :
    (estimateFillPrice [⟨10, 2⟩, ⟨11, 3⟩] 4).filled = 4 ∧
    (estimateFillPrice [⟨10, 2⟩, ⟨11, 3⟩] 4).effectivePrice =
      some (specWeightedMean [⟨10, 2⟩, ⟨11, 3⟩] 4) :=
  claim5_order_book_walk_law [⟨10, 2⟩, ⟨11, 3⟩] 4 2 (by decide) (by decide) (by decide)

/-! ### C9 -/

lemma mem_getUSDTSpotSymbols {m : MarketsMap} {s : String} :
    s ∈ getUSDTSpotSymbols (some m) ↔
      ∃ meta, (s, meta) ∈ m ∧ (strEndsWith s "/USDT" && meta.active && meta.spot) = true := by
  simp only [getUSDTSpotSymbols, List.mem_map, List.mem_filter]
  constructor
  · rintro ⟨pr, ⟨hmem, hp⟩, rfl⟩
    exact ⟨pr.2, hmem, hp⟩
  · rintro ⟨meta, hmem, hp⟩
    exact ⟨(s, meta), ⟨hmem, hp⟩, rfl⟩

lemma getUSDTSpotSymbols_nodup {m : MarketsMap} (h : (m.map Prod.fst).Nodup) :
    (getUSDTSpotSymbols (some m)).Nodup := by
  have hsub : (getUSDTSpotSymbols (some m)).Sublist (m.map Prod.fst) :=
    (List.filter_sublist m).map Prod.fst
  exact h.sublist hsub


lemma lookupCount_bumpCount (counts : List (String × ℕ)) (s s' : String) :
    lookupCount (bumpCount counts s) s' = lookupCount counts s' + (if s' = s then 1 else 0) := by
  unfold bumpCount lookupCount
  by_cases hany : counts.any (fun p => decide (p.1 = s)) = true
  · rw [if_pos hany]
    have hg : ((fun p : String × ℕ => decide (p.1 = s')) ∘
        (fun p : String × ℕ => if p.1 = s then (p.1, p.2 + 1) else p)) =
        (fun p : String × ℕ => decide (p.1 = s')) := by
      funext p
      by_cases hp : p.1 = s
      · simp [hp]
      · simp [hp]
    rw [List.find?_map, hg]
    rcases hf : counts.find? (fun p => decide (p.1 = s')) with _ | pr
    · by_cases hss : s' = s
      · subst hss
        obtain ⟨x, hx, hpx⟩ := List.any_eq_true.mp hany
        exact absurd hpx (List.find?_eq_none.mp hf x hx)
      · simp [hf, hss]
    · have hpr : pr.1 = s' := by simpa using List.find?_some hf
      by_cases hss : s' = s
      · subst hss
        simp [hf, hpr]
      · have hps : ¬ pr.1 = s := by rw [hpr]; exact hss
        simp [hf, hps, hss]
  · rw [if_neg hany]
    rcases hf : counts.find? (fun p => decide (p.1 = s')) with _ | pr
    · rw [List.find?_append, hf]
      by_cases hss : s' = s
      · subst hss
        simp [hf, List.find?]
      · simp [hf, List.find?, hss, Ne.symm hss]
    · have hpr : pr.1 = s' := by simpa using List.find?_some hf
      rw [List.find?_append, hf]
      by_cases hss : s' = s
      · subst hss
        refine absurd (List.any_eq_true.mpr ⟨pr, List.mem_of_find?_eq_some hf, ?_⟩) hany
        simp [hpr]
      · simp [hf, hss]


lemma lookupCount_foldl (syms : List String) : ∀ (acc : List (String × ℕ)) (s : String),
    lookupCount (syms.foldl bumpCount acc) s = lookupCount acc s + syms.count s := by
  induction syms with
  | nil => intro acc s; simp
  | cons x xs ih =>
    intro acc s
    simp only [List.foldl_cons, ih, lookupCount_bumpCount, List.count_cons]
    by_cases hsx : s = x
    · simp [hsx]
      omega
    · have hxs : ¬ (x == s) = true := by simpa using fun he => hsx he.symm
      simp [hsx, hxs]

lemma lookupCount_scan (env : String → Option MarketsMap) (names : List String) :
    ∀ (acc : List (String × ℕ)) (s : String),
    lookupCount (names.foldl
        (fun acc name => (getUSDTSpotSymbols (env name)).foldl bumpCount acc) acc) s
      = lookupCount acc s + (names.map (fun n => (getUSDTSpotSymbols (env n)).count s)).sum := by
  induction names with
  | nil => intro acc s; simp
  | cons n ns ih =>
    intro acc s
    simp only [List.foldl_cons, ih, lookupCount_foldl, List.map_cons, List.sum_cons]
    omega

lemma keys_bumpCount {counts : List (String × ℕ)} (s : String)
    (h : (counts.map Prod.fst).Nodup) : ((bumpCount counts s).map Prod.fst).Nodup := by
  unfold bumpCount
  by_cases hany : counts.any (fun p => decide (p.1 = s)) = true
  · rw [if_pos hany]
    have hfg : (Prod.fst ∘ fun p : String × ℕ => if p.1 = s then (p.1, p.2 + 1) else p) =
        Prod.fst := by
      funext p
      by_cases hp : p.1 = s
      · simp [hp]
      · simp [hp]
    rw [List.map_map, hfg]
    exact h
  · rw [if_neg hany, List.map_append]
    have hs : s ∉ counts.map Prod.fst := by
      intro hmem
      obtain ⟨p, hp, rfl⟩ := List.mem_map.mp hmem
      exact hany (List.any_eq_true.mpr ⟨p, hp, by simp⟩)
    simp [List.nodup_append, h, hs]

lemma keys_foldl (syms : List String) : ∀ (acc : List (String × ℕ)),
    (acc.map Prod.fst).Nodup → ((syms.foldl bumpCount acc).map Prod.fst).Nodup := by
  induction syms with
  | nil => intro acc h; simpa using h
  | cons x xs ih =>
    intro acc h
    simpa using ih (bumpCount acc x) (keys_bumpCount x h)

lemma keys_scan (env : String → Option MarketsMap) (names : List String) :
    ∀ (acc : List (String × ℕ)), (acc.map Prod.fst).Nodup →
    (((names.foldl (fun acc name => (getUSDTSpotSymbols (env name)).foldl bumpCount acc)
        acc).map Prod.fst).Nodup) := by
  induction names with
  | nil => intro acc h; simpa using h
  | cons n ns ih =>
    intro acc h
    simpa using ih _ (keys_foldl (getUSDTSpotSymbols (env n)) acc h)

lemma find?_of_mem_keys_nodup {counts : List (String × ℕ)}
    (h : (counts.map Prod.fst).Nodup) {pr : String × ℕ} (hm : pr ∈ counts) :
    counts.find? (fun p => decide (p.1 = pr.1)) = some pr := by
  induction counts with
  | nil => simp at hm
  | cons x xs ih =>
    rcases List.mem_cons.mp hm with rfl | hm2
    · rw [List.find?_cons_of_pos _ (by simp)]
    · have h2 := h
      rw [List.map_cons] at h2
      have hkeys := List.nodup_cons.mp h2
      have hx : ¬ x.1 = pr.1 := by
        intro he
        exact hkeys.1 (he ▸ List.mem_map.mpr ⟨pr, hm2, rfl⟩)
      rw [List.find?_cons_of_neg _ (by simp [hx])]
      exact ih hkeys.2 hm2

/-- C9: `getUSDTSpotSymbols` returns exactly the market keys ending in
`/USDT` whose market is active and spot (and `[]` when markets could not
be loaded), and — provided each venue's market keys are distinct, as JS
object keys are — `getCommonUSDTSymbols` returns exactly the symbols so
obtained on at least 2 venues; in particular every active spot `/USDT`
symbol listed on two or more venues appears in the result. -/
theorem claim9_symbol_universe (env : String → Option MarketsMap)
    (hnd : ∀ name m, env name = some m → (m.map Prod.fst).Nodup) :
    (∀ (m : MarketsMap) (s : String), s ∈ getUSDTSpotSymbols (some m) ↔
       ∃ meta, (s, meta) ∈ m ∧ (strEndsWith s "/USDT" && meta.active && meta.spot) = true) ∧
    getUSDTSpotSymbols none = [] ∧
    (∀ s, s ∈ getCommonUSDTSymbols env ↔
       2 ≤ (exchangeNames.filter (fun v => decide (s ∈ getUSDTSpotSymbols (env v)))).length) := by
  refine ⟨fun m s => mem_getUSDTSpotSymbols, rfl, fun s => ?_⟩
  have hone : ∀ n, (getUSDTSpotSymbols (env n)).count s =
      if s ∈ getUSDTSpotSymbols (env n) then 1 else 0 := by
    intro n
    rcases he : env n with _ | m
    · simp [getUSDTSpotSymbols]
    · have hnod := getUSDTSpotSymbols_nodup (hnd n m he)
      by_cases hmem : s ∈ getUSDTSpotSymbols (some m)
      · rw [if_pos hmem]
        exact List.count_eq_one_of_mem hnod hmem
      · rw [if_neg hmem]
        exact List.count_eq_zero_of_not_mem hmem
  have hsum : ∀ (names : List String),
      (names.map (fun n => (getUSDTSpotSymbols (env n)).count s)).sum =
        (names.filter (fun v => decide (s ∈ getUSDTSpotSymbols (env v)))).length := by
    intro names
    induction names with
    | nil => rfl
    | cons n ns ih =>
      simp only [List.map_cons, List.sum_cons, List.filter_cons, ih, hone n]
      by_cases hmem : s ∈ getUSDTSpotSymbols (env n)
      · simp [hmem]
        omega
      · simp [hmem]
  have hkeys : ((exchangeNames.foldl
      (fun acc name => (getUSDTSpotSymbols (env name)).foldl bumpCount acc) []).map
        Prod.fst).Nodup :=
    keys_scan env exchangeNames [] (by simp)
  have hcount : lookupCount (exchangeNames.foldl
      (fun acc name => (getUSDTSpotSymbols (env name)).foldl bumpCount acc) []) s =
      (exchangeNames.filter (fun v => decide (s ∈ getUSDTSpotSymbols (env v)))).length := by
    rw [lookupCount_scan env exchangeNames [] s, hsum]
    simp [lookupCount]
  constructor
  · intro hmem
    simp only [getCommonUSDTSymbols, List.mem_map, List.mem_filter] at hmem
    obtain ⟨pr, ⟨hpin, hp2⟩, hp1⟩ := hmem
    have hf := find?_of_mem_keys_nodup hkeys hpin
    rw [← hcount]
    rw [hp1] at hf
    rw [lookupCount, hf]
    simpa using hp2
  · intro h2
    rw [← hcount] at h2
    rcases hf : (exchangeNames.foldl
        (fun acc name => (getUSDTSpotSymbols (env name)).foldl bumpCount acc) []).find?
        (fun p => decide (p.1 = s)) with _ | pr
    · rw [lookupCount, hf] at h2
      simp at h2
    · have hpr1 : pr.1 = s := by simpa using List.find?_some hf
      have hpr2 : pr.2 = lookupCount (exchangeNames.foldl
          (fun acc name => (getUSDTSpotSymbols (env name)).foldl bumpCount acc) []) s := by
        rw [lookupCount, hf]
        rfl
      simp only [getCommonUSDTSymbols, List.mem_map, List.mem_filter]
      refine ⟨pr, ⟨List.mem_of_find?_eq_some hf, ?_⟩, hpr1⟩
      simp only [decide_eq_true_eq]
      rw [hpr2]
      exact h2


/-- A concrete markets environment: `BTC/USDT` is active spot on two
venues, `DOGE/USDT` is inactive on one, other venues fail to load. -/
def c9Env : String → Option MarketsMap := fun name =>
  if name = "binance" then some [("BTC/USDT", ⟨true, true⟩), ("ETH/BTC", ⟨true, true⟩)]
  else if name = "kucoin" then some [("BTC/USDT", ⟨true, true⟩), ("DOGE/USDT", ⟨false, true⟩)]
  else none

lemma c9Env_nodup : ∀ name m, c9Env name = some m → (m.map Prod.fst).Nodup := by
  intro name m h
  unfold c9Env at h
  split_ifs at h
  · obtain rfl := Option.some.inj h
    decide
  · obtain rfl := Option.some.inj h
    decide

/-- C9 witness: on the concrete environment, `BTC/USDT` (active spot on
two venues) is in the common-symbol list. -/
theorem claim9_symbol_universe_witness : "BTC/USDT" ∈ getCommonUSDTSymbols c9Env :=
  ((claim9_symbol_universe c9Env c9Env_nodup).2.2 "BTC/USDT").mpr (by decide)

end Arb
